import Mathlib

/-!
Shallow embedding of the konflux-ci coverage-dashboard repository:
the ownership detector (package ownership, detector source) and the
configuration writer (internal/config/config.go).

Go slices become Lean lists, Go strings become Lean `String`
(reasoned about through their `List Char` data), fallible Go calls
return `Except`, and the mutable filesystem becomes explicit state
passing.  Network calls (the GitHub API) are modelled as function-valued
fields of a `GitHubAPI` record, quantified over in the theorems; each
detector function additionally returns the list of API calls it issued,
so that claims about which queries are invoked can be stated.
-/

/-- Decidable equality for strategy results, so that concrete runs of the
embedded code can be checked by evaluation. -/
instance exceptDecEq {α β : Type} [DecidableEq α] [DecidableEq β] : DecidableEq (Except α β)
  | Except.error x, Except.error y => decidable_of_iff (x = y) (by simp)
  | Except.error _, Except.ok _ => Decidable.isFalse (by simp)
  | Except.ok _, Except.error _ => Decidable.isFalse (by simp)
  | Except.ok x, Except.ok y => decidable_of_iff (x = y) (by simp)

namespace CoverageDashboard

/-! ## Ownership detector (package ownership) -/

/-- Character class of the Go regex `[a-zA-Z0-9_-]` used by
`extractOwnersFromCodeowners` in the detector. -/
def isOwnerChar (c : Char) : Bool :=
  c.isAlpha || c.isDigit || c = '_' || c = '-'

/-- Longest prefix of characters in the owner character class, together
with the remainder (models the greedy `[a-zA-Z0-9_-]+` of the regex). -/
def takeOwnerChars : List Char → List Char × List Char
  | [] => ([], [])
  | c :: cs =>
    if isOwnerChar c then
      let r := takeOwnerChars cs
      (c :: r.1, r.2)
    else ([], c :: cs)

/-- Scanner for the Go regex `@[a-zA-Z0-9_-]+(/[a-zA-Z0-9_-]+)?` with
`FindAllString` semantics: leftmost, greedy, non-overlapping matches.
The fuel argument bounds recursion; it is always at least the length of
the character list, and every recursive call strictly shrinks the list. -/
def scanAux : Nat → List Char → List String
  | 0, _ => []
  | Nat.succ _, [] => []
  | Nat.succ fuel, '@' :: rest =>
    match takeOwnerChars rest with
    | ([], _) => scanAux fuel rest
    | (c1 :: ident1, r1) =>
      match r1 with
      | '/' :: rest2 =>
        match takeOwnerChars rest2 with
        | ([], _) => String.mk ('@' :: c1 :: ident1) :: scanAux fuel ('/' :: rest2)
        | (c2 :: ident2, r2) =>
          String.mk ('@' :: (c1 :: ident1) ++ '/' :: c2 :: ident2) :: scanAux fuel r2
      | _ => String.mk ('@' :: c1 :: ident1) :: scanAux fuel r1
  | Nat.succ fuel, _ :: rest => scanAux fuel rest

/-- All regex matches of the owner pattern in the content, in order
(models `ownerPattern.FindAllString(content, -1)`). -/
def scanOwners (l : List Char) : List String :=
  scanAux l.length l

/-- Deduplicate-and-cap loop of `extractOwnersFromCodeowners`: the `seen`
set is the Go map, `acc` the accumulated owners, and the loop breaks as
soon as 5 owners are collected. -/
def dedupLimit (seen : List String) (acc : List String) : List String → List String
  | [] => acc
  | m :: rest =>
    if m ∈ seen then dedupLimit seen acc rest
    else
      let acc2 := acc ++ [m]
      if acc2.length ≥ 5 then acc2
      else dedupLimit (m :: seen) acc2 rest

/-- Embedding of `extractOwnersFromCodeowners`: find all matches of the
owner pattern, deduplicate preserving first-seen order, cap at 5. -/
def extractOwnersFromCodeowners (content : String) : List String :=
  dedupLimit [] [] (scanOwners content.data)

/-- Team entry as consumed by `detectFromTeams` (`team.GetSlug()` and
`team.GetPermission()` of the GitHub API response). -/
structure Team where
  slug : String
  permission : String

/-- Collaborator entry as consumed by `detectFromCollaborators`
(`collab.GetLogin()` and the permission map `collab.GetPermissions()`;
a Go map lookup of a missing key yields `false`). -/
structure Collaborator where
  login : String
  permissions : String → Bool

/-- Behaviour of the GitHub API client, one function per endpoint used
by the detector.  Every error path of the Go client (HTTP error, nil
content, decode failure) is collapsed into the `Except.error` case. -/
structure GitHubAPI where
  listTeams : String → String → Except String (List Team)
  listCollaborators : String → String → Except String (List Collaborator)
  getContents : String → String → String → Except String String

/-- One API call issued by the detector, recorded so that claims about
which queries are invoked can be stated. -/
inductive ApiCall where
  | getContents (org repo path : String)
  | listTeams (org repo : String)
  | listCollaborators (org repo : String)
deriving DecidableEq

/-- Discriminator for file-content fetches. -/
def ApiCall.isGetContents : ApiCall → Bool
  | .getContents _ _ _ => true
  | _ => false

/-- Discriminator for the teams query. -/
def ApiCall.isListTeams : ApiCall → Bool
  | .listTeams _ _ => true
  | _ => false

/-- Discriminator for the collaborators query. -/
def ApiCall.isListCollaborators : ApiCall → Bool
  | .listCollaborators _ _ => true
  | _ => false

/-- Candidate CODEOWNERS paths, checked in sequence (the package-level
`codeownersPaths` variable). -/
def codeownersPaths : List String :=
  [".github/CODEOWNERS", "CODEOWNERS", "docs/CODEOWNERS"]

/-- Embedding of `GetCodeownersPaths` (returns a copy of the list). -/
def GetCodeownersPaths : List String :=
  codeownersPaths

/-- Detector state fixed at construction: the optional GitHub client
(`none` models a nil `*github.Client`) and the default owner string. -/
structure Detector where
  client : Option GitHubAPI
  defaultOwner : String

/-- Embedding of `NewDetector`: an empty default owner is replaced by
the hardcoded literal. -/
def NewDetector (client : Option GitHubAPI) (defaultOwner : String) : Detector :=
  { client := client
    defaultOwner := if defaultOwner = "" then "@konflux-ci/Vanguard" else defaultOwner }

/-- Embedding of `fetchFile`: errors when the client is nil (before any
call is issued), otherwise issues a `getContents` call whose outcome is
fixed by the client behaviour. -/
def Detector.fetchFile (d : Detector) (org repo path : String) :
    Except String String × List ApiCall :=
  match d.client with
  | none => (Except.error "GitHub client not configured", [])
  | some c =>
    match c.getContents org repo path with
    | Except.error e =>
      (Except.error ("failed to fetch " ++ path ++ ": " ++ e), [ApiCall.getContents org repo path])
    | Except.ok content => (Except.ok content, [ApiCall.getContents org repo path])

/-- Path loop of `detectFromCodeowners`: fetch each path in order,
remembering the last error; a successfully fetched file with a
non-empty extraction ends the loop, otherwise the loop records the
"no valid owners" error and continues. -/
def codeownersLoop (d : Detector) (org repo : String) (lastErr : Option String) :
    List String → Except String (List String) × List ApiCall
  | [] =>
    match lastErr with
    | some e => (Except.error ("failed to detect owners from CODEOWNERS: " ++ e), [])
    | none => (Except.error "no CODEOWNERS files found", [])
  | path :: rest =>
    let fr := d.fetchFile org repo path
    match fr.1 with
    | Except.error e =>
      let r := codeownersLoop d org repo (some e) rest
      (r.1, fr.2 ++ r.2)
    | Except.ok content =>
      let owners := extractOwnersFromCodeowners content
      if owners.length > 0 then (Except.ok owners, fr.2)
      else
        let r := codeownersLoop d org repo (some ("no valid owners found in " ++ path)) rest
        (r.1, fr.2 ++ r.2)

/-- Embedding of `detectFromCodeowners`. -/
def Detector.detectFromCodeowners (d : Detector) (org repo : String) :
    Except String (List String) × List ApiCall :=
  codeownersLoop d org repo none codeownersPaths

/-- Accumulation loop of `detectFromTeams`: keep teams whose permission
is exactly "admin" or "maintain", formatted `@org/slug`, breaking once
3 owners are collected. -/
def teamsLoop (org : String) (acc : List String) : List Team → List String
  | [] => acc
  | t :: rest =>
    if t.permission == "admin" || t.permission == "maintain" then
      let acc2 := acc ++ ["@" ++ org ++ "/" ++ t.slug]
      if acc2.length ≥ 3 then acc2 else teamsLoop org acc2 rest
    else teamsLoop org acc rest

/-- Embedding of `detectFromTeams`. -/
def Detector.detectFromTeams (d : Detector) (org repo : String) :
    Except String (List String) × List ApiCall :=
  match d.client with
  | none => (Except.error "GitHub client not configured", [])
  | some c =>
    match c.listTeams org repo with
    | Except.error e =>
      (Except.error ("failed to list teams for " ++ org ++ "/" ++ repo ++ ": " ++ e),
        [ApiCall.listTeams org repo])
    | Except.ok teams =>
      let owners := teamsLoop org [] teams
      if owners.length = 0 then
        (Except.error "no teams with admin/maintain permissions found",
          [ApiCall.listTeams org repo])
      else (Except.ok owners, [ApiCall.listTeams org repo])

/-- Accumulation loop of `detectFromCollaborators`: keep collaborators
whose permission map has admin or maintain set, formatted `@login`,
breaking once 5 owners are collected. -/
def collabLoop (acc : List String) : List Collaborator → List String
  | [] => acc
  | c :: rest =>
    if c.permissions "admin" || c.permissions "maintain" then
      let acc2 := acc ++ ["@" ++ c.login]
      if acc2.length ≥ 5 then acc2 else collabLoop acc2 rest
    else collabLoop acc rest

/-- Embedding of `detectFromCollaborators` (the affiliation and paging
options only shape the API request; the response list is the client
behaviour). -/
def Detector.detectFromCollaborators (d : Detector) (org repo : String) :
    Except String (List String) × List ApiCall :=
  match d.client with
  | none => (Except.error "GitHub client not configured", [])
  | some c =>
    match c.listCollaborators org repo with
    | Except.error e =>
      (Except.error ("failed to list collaborators for " ++ org ++ "/" ++ repo ++ ": " ++ e),
        [ApiCall.listCollaborators org repo])
    | Except.ok collaborators =>
      let owners := collabLoop [] collaborators
      if owners.length = 0 then
        (Except.error "no collaborators with admin/maintain permissions found",
          [ApiCall.listCollaborators org repo])
      else (Except.ok owners, [ApiCall.listCollaborators org repo])

/-- Go test `err == nil && len(owners) > 0` applied to a strategy
result: `some owners` exactly when the strategy succeeded with a
non-empty list. -/
def okNonEmpty : Except String (List String) → Option (List String)
  | Except.ok owners => if owners.length > 0 then some owners else none
  | Except.error _ => none

/-- Embedding of `DetectOwners`: the four-strategy fallback chain.  The
second component is the concatenated trace of API calls issued. -/
def Detector.DetectOwners (d : Detector) (org repo : String) :
    Except String (List String) × List ApiCall :=
  let r1 := d.detectFromCodeowners org repo
  match okNonEmpty r1.1 with
  | some owners => (Except.ok owners, r1.2)
  | none =>
    let r2 := d.detectFromTeams org repo
    match okNonEmpty r2.1 with
    | some owners => (Except.ok owners, r1.2 ++ r2.2)
    | none =>
      let r3 := d.detectFromCollaborators org repo
      match okNonEmpty r3.1 with
      | some owners => (Except.ok owners, r1.2 ++ r2.2 ++ r3.2)
      | none => (Except.ok [d.defaultOwner], r1.2 ++ r2.2 ++ r3.2)

/-! ## Lemmas about the extraction loop -/

lemma dedupLimit_length_le :
    ∀ (ms seen acc : List String), acc.length ≤ 4 → (dedupLimit seen acc ms).length ≤ 5 := by
  intro ms
  induction ms with
  | nil => intro seen acc h; simp only [dedupLimit]; omega
  | cons m rest ih =>
    intro seen acc h
    simp only [dedupLimit]
    split
    · exact ih seen acc h
    · split
      · simp only [List.length_append, List.length_singleton]; omega
      · rename_i hlen
        apply ih
        simp only [List.length_append, List.length_singleton] at hlen ⊢
        omega

lemma dedupLimit_mem :
    ∀ (ms seen acc : List String) (x : String), x ∈ dedupLimit seen acc ms → x ∈ acc ∨ x ∈ ms := by
  intro ms
  induction ms with
  | nil => intro seen acc x h; simp only [dedupLimit] at h; exact Or.inl h
  | cons m rest ih =>
    intro seen acc x h
    simp only [dedupLimit] at h
    split at h
    · rcases ih _ _ _ h with h1 | h1
      · exact Or.inl h1
      · exact Or.inr (List.mem_cons_of_mem _ h1)
    · split at h
      · rcases List.mem_append.mp h with h1 | h1
        · exact Or.inl h1
        · simp only [List.mem_singleton] at h1
          exact Or.inr (h1 ▸ List.mem_cons_self _ _)
      · rcases ih _ _ _ h with h1 | h1
        · rcases List.mem_append.mp h1 with h2 | h2
          · exact Or.inl h2
          · simp only [List.mem_singleton] at h2
            exact Or.inr (h2 ▸ List.mem_cons_self _ _)
        · exact Or.inr (List.mem_cons_of_mem _ h1)

lemma dedupLimit_nodup :
    ∀ (ms seen acc : List String), acc.Nodup → (∀ x ∈ acc, x ∈ seen) →
      (dedupLimit seen acc ms).Nodup := by
  intro ms
  induction ms with
  | nil => intro seen acc h1 _; simpa only [dedupLimit] using h1
  | cons m rest ih =>
    intro seen acc h1 h2
    simp only [dedupLimit]
    split
    · exact ih _ _ h1 h2
    · rename_i hm
      have hma : m ∉ acc := fun hx => hm (h2 m hx)
      have hnodup2 : (acc ++ [m]).Nodup :=
        List.Nodup.append h1 (List.nodup_singleton m)
          (by simpa [List.disjoint_singleton] using hma)
      split
      · exact hnodup2
      · refine ih _ _ hnodup2 ?_
        intro x hx
        rcases List.mem_append.mp hx with h3 | h3
        · exact List.mem_cons_of_mem _ (h2 x h3)
        · simp only [List.mem_singleton] at h3
          exact h3 ▸ List.mem_cons_self _ _

lemma dedupLimit_sublist :
    ∀ (ms seen acc : List String), ∃ t, dedupLimit seen acc ms = acc ++ t ∧ t.Sublist ms := by
  intro ms
  induction ms with
  | nil => intro seen acc; exact ⟨[], by simp [dedupLimit]⟩
  | cons m rest ih =>
    intro seen acc
    simp only [dedupLimit]
    split
    · obtain ⟨t, ht1, ht2⟩ := ih seen acc
      exact ⟨t, ht1, ht2.cons m⟩
    · split
      · exact ⟨[m], rfl, List.singleton_sublist.mpr (List.mem_cons_self _ _)⟩
      · obtain ⟨t, ht1, ht2⟩ := ih (m :: seen) (acc ++ [m])
        exact ⟨m :: t, by simpa [List.append_assoc] using ht1, ht2.cons₂ m⟩

lemma scanAux_head :
    ∀ (fuel : Nat) (l : List Char) (o : String), o ∈ scanAux fuel l → o.data.head? = some '@' := by
  intro fuel
  induction fuel with
  | zero => intro l o h; simp [scanAux] at h
  | succ fuel ih =>
    intro l o h
    rw [scanAux.eq_def] at h
    split at h
    · simp at h
    · simp at h
    · rename_i heq
      obtain rfl := Nat.succ.inj heq
      split at h
      · exact ih _ _ h
      · split at h
        · split at h
          · rcases List.mem_cons.mp h with h1 | h1
            · subst h1; rfl
            · exact ih _ _ h1
          · rcases List.mem_cons.mp h with h1 | h1
            · subst h1; rfl
            · exact ih _ _ h1
        · rcases List.mem_cons.mp h with h1 | h1
          · subst h1; rfl
          · exact ih _ _ h1
    · rename_i heq
      obtain rfl := Nat.succ.inj heq
      exact ih _ _ h

lemma extract_length_le (content : String) :
    (extractOwnersFromCodeowners content).length ≤ 5 :=
  dedupLimit_length_le _ _ _ (by simp)

lemma extract_head_at (content : String) (o : String)
    (h : o ∈ extractOwnersFromCodeowners content) : o.data.head? = some '@' := by
  rcases dedupLimit_mem _ _ _ _ h with h1 | h1
  · simp at h1
  · exact scanAux_head _ _ _ h1

/-! ## Lemmas about the teams and collaborators loops -/

lemma teamsLoop_eq (org : String) :
    ∀ (ts : List Team) (acc : List String), acc.length < 3 →
      teamsLoop org acc ts
        = (acc ++ (ts.filter fun t =>
            t.permission == "admin" || t.permission == "maintain").map
              (fun t => "@" ++ org ++ "/" ++ t.slug)).take 3 := by
  intro ts
  induction ts with
  | nil =>
    intro acc h
    simp [teamsLoop, List.take_of_length_le (Nat.le_of_lt h)]
  | cons t rest ih =>
    intro acc h
    simp only [teamsLoop]
    by_cases hq : (t.permission == "admin" || t.permission == "maintain") = true
    · rw [if_pos hq]
      simp only [List.filter_cons, hq, if_true, List.map_cons]
      by_cases h3 : (acc ++ ["@" ++ org ++ "/" ++ t.slug]).length ≥ 3
      · rw [if_pos h3]
        have hlen : acc.length = 2 := by
          simp only [List.length_append, List.length_singleton] at h3
          omega
        rw [List.take_append_eq_append_take, List.take_of_length_le (by omega), hlen]
        simp
      · rw [if_neg h3]
        have hlt : (acc ++ ["@" ++ org ++ "/" ++ t.slug]).length < 3 := by omega
        rw [ih _ hlt]
        simp [List.append_assoc]
    · rw [if_neg hq]
      simp only [List.filter_cons]
      rw [if_neg (by simpa using hq)]
      exact ih acc h

lemma teamsLoop_le_3 (org : String) (ts : List Team) : (teamsLoop org [] ts).length ≤ 3 := by
  rw [teamsLoop_eq org ts [] (by simp)]
  simp [List.length_take]

lemma collabLoop_eq :
    ∀ (cs : List Collaborator) (acc : List String), acc.length < 5 →
      collabLoop acc cs
        = (acc ++ (cs.filter fun c =>
            c.permissions "admin" || c.permissions "maintain").map
              (fun c => "@" ++ c.login)).take 5 := by
  intro cs
  induction cs with
  | nil =>
    intro acc h
    simp [collabLoop, List.take_of_length_le (Nat.le_of_lt h)]
  | cons c rest ih =>
    intro acc h
    simp only [collabLoop]
    by_cases hq : (c.permissions "admin" || c.permissions "maintain") = true
    · rw [if_pos hq]
      simp only [List.filter_cons, hq, if_true, List.map_cons]
      by_cases h5 : (acc ++ ["@" ++ c.login]).length ≥ 5
      · rw [if_pos h5]
        have hlen : acc.length = 4 := by
          simp only [List.length_append, List.length_singleton] at h5
          omega
        rw [List.take_append_eq_append_take, List.take_of_length_le (by omega), hlen]
        simp
      · rw [if_neg h5]
        have hlt : (acc ++ ["@" ++ c.login]).length < 5 := by omega
        rw [ih _ hlt]
        simp [List.append_assoc]
    · rw [if_neg hq]
      simp only [List.filter_cons]
      rw [if_neg (by simpa using hq)]
      exact ih acc h

lemma collabLoop_le_5 (cs : List Collaborator) : (collabLoop [] cs).length ≤ 5 := by
  rw [collabLoop_eq cs [] (by simp)]
  simp [List.length_take]

/-! ## Result-shape lemmas for the three fallible strategies -/

lemma codeownersLoop_ok :
    ∀ (paths : List String) (d : Detector) (org repo : String)
      (lastErr : Option String) (owners : List String),
      (codeownersLoop d org repo lastErr paths).1 = Except.ok owners →
      (∃ content, owners = extractOwnersFromCodeowners content) ∧ 0 < owners.length := by
  intro paths
  induction paths with
  | nil =>
    intro d org repo lastErr owners h
    rw [codeownersLoop.eq_def] at h
    cases lastErr <;> simp at h
  | cons p rest ih =>
    intro d org repo lastErr owners h
    rw [codeownersLoop.eq_def] at h
    simp only at h
    split at h
    · exact ih _ _ _ _ _ h
    · rename_i content heq
      split at h
      · rename_i hpos
        simp only at h
        cases h
        exact ⟨⟨content, rfl⟩, hpos⟩
      · exact ih _ _ _ _ _ h

lemma detectFromCodeowners_ok (d : Detector) (org repo : String) (owners : List String)
    (h : (d.detectFromCodeowners org repo).1 = Except.ok owners) :
    (∃ content, owners = extractOwnersFromCodeowners content) ∧ 0 < owners.length :=
  codeownersLoop_ok _ _ _ _ _ _ h

lemma detectFromTeams_ok (d : Detector) (org repo : String) (owners : List String)
    (h : (d.detectFromTeams org repo).1 = Except.ok owners) :
    (∃ ts, owners = teamsLoop org [] ts) ∧ 0 < owners.length := by
  simp only [Detector.detectFromTeams] at h
  cases hc : d.client with
  | none => rw [hc] at h; simp at h
  | some c =>
    rw [hc] at h
    simp only at h
    cases ht : c.listTeams org repo with
    | error e => rw [ht] at h; simp at h
    | ok ts =>
      rw [ht] at h
      simp only at h
      split at h
      · simp at h
      · rename_i hz
        simp only at h
        cases h
        exact ⟨⟨ts, rfl⟩, Nat.pos_of_ne_zero hz⟩

lemma detectFromCollaborators_ok (d : Detector) (org repo : String) (owners : List String)
    (h : (d.detectFromCollaborators org repo).1 = Except.ok owners) :
    (∃ cs, owners = collabLoop [] cs) ∧ 0 < owners.length := by
  simp only [Detector.detectFromCollaborators] at h
  cases hc : d.client with
  | none => rw [hc] at h; simp at h
  | some c =>
    rw [hc] at h
    simp only at h
    cases ht : c.listCollaborators org repo with
    | error e => rw [ht] at h; simp at h
    | ok cs =>
      rw [ht] at h
      simp only at h
      split at h
      · simp at h
      · rename_i hz
        simp only at h
        cases h
        exact ⟨⟨cs, rfl⟩, Nat.pos_of_ne_zero hz⟩

lemma okNonEmpty_some (r : Except String (List String)) (owners : List String)
    (h : okNonEmpty r = some owners) : r = Except.ok owners ∧ 0 < owners.length := by
  cases r with
  | error e => simp [okNonEmpty] at h
  | ok o =>
    simp only [okNonEmpty] at h
    split at h
    · cases h; exact ⟨rfl, by assumption⟩
    · cases h

lemma okNonEmpty_ok (owners : List String) (h : owners ≠ []) :
    okNonEmpty (Except.ok owners) = some owners := by
  simp [okNonEmpty, List.length_pos.mpr h]

/-! ## Claim theorems for the detector -/

/-- C1: for every organization and repository and every behaviour of the
file-fetch and API sources (including nil client and errors everywhere),
DetectOwners returns a nil error together with a list of 1 to 5 owner
handles; no error crosses the detector boundary. -/
theorem detectOwners_never_fails_and_capped (d : Detector) (org repo : String) :
    ∃ owners, (d.DetectOwners org repo).1 = Except.ok owners
      ∧ 1 ≤ owners.length ∧ owners.length ≤ 5 := by
  simp only [Detector.DetectOwners]
  cases h1 : okNonEmpty (d.detectFromCodeowners org repo).1 with
  | some owners =>
    obtain ⟨hr, hpos⟩ := okNonEmpty_some _ _ h1
    obtain ⟨⟨content, hco⟩, _⟩ := detectFromCodeowners_ok d org repo owners hr
    exact ⟨owners, by simp, hpos, by rw [hco]; exact extract_length_le content⟩
  | none =>
    cases h2 : okNonEmpty (d.detectFromTeams org repo).1 with
    | some owners =>
      obtain ⟨hr, hpos⟩ := okNonEmpty_some _ _ h2
      obtain ⟨⟨ts, hts⟩, _⟩ := detectFromTeams_ok d org repo owners hr
      refine ⟨owners, by simp, hpos, ?_⟩
      rw [hts]
      exact le_trans (teamsLoop_le_3 org ts) (by omega)
    | none =>
      cases h3 : okNonEmpty (d.detectFromCollaborators org repo).1 with
      | some owners =>
        obtain ⟨hr, hpos⟩ := okNonEmpty_some _ _ h3
        obtain ⟨⟨cs, hcs⟩, _⟩ := detectFromCollaborators_ok d org repo owners hr
        refine ⟨owners, by simp, hpos, ?_⟩
        rw [hcs]
        exact collabLoop_le_5 cs
      | none => exact ⟨[d.defaultOwner], by simp, by simp, by simp⟩

/-- C4: a team is kept iff its permission string equals exactly "admin"
or "maintain" and a collaborator iff its permission flags have admin or
maintain set, in source order up to the caps; the concrete teams
scenario from the spec yields exactly the two elevated teams. -/
theorem elevated_permission_filtering :
    (∀ (org : String) (ts : List Team),
        teamsLoop org [] ts
          = ((ts.filter fun t =>
              t.permission == "admin" || t.permission == "maintain").map
                (fun t => "@" ++ org ++ "/" ++ t.slug)).take 3)
    ∧ (∀ cs : List Collaborator,
        collabLoop [] cs
          = ((cs.filter fun c =>
              c.permissions "admin" || c.permissions "maintain").map
                (fun c => "@" ++ c.login)).take 5)
    ∧ ((Detector.mk (some ⟨fun _ _ => Except.ok
          [⟨"admin-team", "admin"⟩, ⟨"maintain-team", "maintain"⟩, ⟨"read-team", "read"⟩],
          fun _ _ => Except.error "unused", fun _ _ _ => Except.error "unused"⟩)
          "d").detectFromTeams "org" "repo").1
        = Except.ok ["@org/admin-team", "@org/maintain-team"] := by
  refine ⟨fun org ts => ?_, fun cs => ?_, by decide⟩
  · simpa using teamsLoop_eq org ts [] (by simp)
  · simpa using collabLoop_eq cs [] (by simp)

/-- C5: per-strategy caps: 7 qualifying teams give exactly the first 3
handles, 7 qualifying collaborators give exactly the first 5, and a file
with 8 distinct handle tokens gives exactly the first 5. -/
theorem per_strategy_caps :
    ((Detector.mk (some ⟨fun _ _ => Except.ok
        [⟨"t1", "admin"⟩, ⟨"t2", "admin"⟩, ⟨"t3", "admin"⟩, ⟨"t4", "admin"⟩,
         ⟨"t5", "admin"⟩, ⟨"t6", "admin"⟩, ⟨"t7", "admin"⟩],
        fun _ _ => Except.error "unused", fun _ _ _ => Except.error "unused"⟩)
        "d").detectFromTeams "org" "repo").1
      = Except.ok ["@org/t1", "@org/t2", "@org/t3"]
    ∧ ((Detector.mk (some ⟨fun _ _ => Except.error "unused",
        fun _ _ => Except.ok
          [⟨"u1", fun k => k == "admin"⟩, ⟨"u2", fun k => k == "admin"⟩,
           ⟨"u3", fun k => k == "maintain"⟩, ⟨"u4", fun k => k == "admin"⟩,
           ⟨"u5", fun k => k == "admin"⟩, ⟨"u6", fun k => k == "admin"⟩,
           ⟨"u7", fun k => k == "admin"⟩],
        fun _ _ _ => Except.error "unused"⟩)
        "d").detectFromCollaborators "org" "repo").1
      = Except.ok ["@u1", "@u2", "@u3", "@u4", "@u5"]
    ∧ extractOwnersFromCodeowners "@a1 @a2 @a3 @a4 @a5 @a6 @a7 @a8"
      = ["@a1", "@a2", "@a3", "@a4", "@a5"] := by
  refine ⟨by decide, by decide, by decide⟩

/-- C7: with a nil client no ownership file is reachable, so DetectOwners
returns exactly the one-element list with the configured default handle,
and an empty configured default is replaced by the hardcoded literal. -/
theorem default_fallback_terminality (defaultOwner org repo : String) :
    ((NewDetector none defaultOwner).DetectOwners org repo).1
      = Except.ok [(NewDetector none defaultOwner).defaultOwner]
    ∧ (defaultOwner = "" →
        (NewDetector none defaultOwner).defaultOwner = "@konflux-ci/Vanguard") := by
  constructor
  · rfl
  · intro h
    simp [NewDetector, h]

/-- C7 witness: an unconfigured detector with empty default owner falls
back to the hardcoded handle. -/
theorem default_fallback_terminality_witness :
    ((NewDetector none "").DetectOwners "o" "r").1 = Except.ok ["@konflux-ci/Vanguard"]
    ∧ (NewDetector none "").defaultOwner = "@konflux-ci/Vanguard" := by
  have h := default_fallback_terminality "" "o" "r"
  exact ⟨by rw [h.1, h.2 rfl], h.2 rfl⟩

/-- C8: extraction deduplicates matched handle tokens by exact string
equality preserving first-seen order (the result has no duplicates and
is a sublist of the raw match sequence), and the two spec examples
evaluate as stated. -/
theorem extract_owners_dedup :
    (∀ content : String, (extractOwnersFromCodeowners content).Nodup
       ∧ (extractOwnersFromCodeowners content).Sublist (scanOwners content.data))
    ∧ extractOwnersFromCodeowners "@user1 @user1 @user2" = ["@user1", "@user2"]
    ∧ extractOwnersFromCodeowners
        "* @konflux-ci/Vanguard\n/repos/x.yaml @dirgim @hongweiliu17 @konflux-ci/integration"
      = ["@konflux-ci/Vanguard", "@dirgim", "@hongweiliu17", "@konflux-ci/integration"] := by
  refine ⟨fun content => ⟨dedupLimit_nodup _ _ _ (by simp) (by simp), ?_⟩, by decide, by decide⟩
  obtain ⟨t, ht1, ht2⟩ := dedupLimit_sublist (scanOwners content.data) [] []
  rw [extractOwnersFromCodeowners, ht1]
  simpa using ht2

/-! ## Trace lemmas: which API calls each strategy issues -/

lemma fetchFile_trace (d : Detector) (org repo path : String) :
    ∀ e ∈ (d.fetchFile org repo path).2, e = ApiCall.getContents org repo path := by
  intro e he
  cases hc : d.client with
  | none => simp [Detector.fetchFile, hc] at he
  | some c =>
    cases hg : c.getContents org repo path with
    | error s =>
      simp only [Detector.fetchFile, hc, hg, List.mem_singleton] at he
      exact he
    | ok content =>
      simp only [Detector.fetchFile, hc, hg, List.mem_singleton] at he
      exact he

lemma codeownersLoop_trace :
    ∀ (paths : List String) (d : Detector) (org repo : String) (lastErr : Option String),
      ∀ e ∈ (codeownersLoop d org repo lastErr paths).2, e.isGetContents = true := by
  intro paths
  induction paths with
  | nil =>
    intro d org repo lastErr e he
    rw [codeownersLoop.eq_def] at he
    cases lastErr <;> simp at he
  | cons p rest ih =>
    intro d org repo lastErr e he
    rw [codeownersLoop.eq_def] at he
    simp only at he
    split at he
    · rcases List.mem_append.mp (by simpa using he) with h1 | h1
      · rw [fetchFile_trace d org repo p e h1]; rfl
      · exact ih _ _ _ _ e h1
    · split at he
      · rw [fetchFile_trace d org repo p e (by simpa using he)]; rfl
      · rcases List.mem_append.mp (by simpa using he) with h1 | h1
        · rw [fetchFile_trace d org repo p e h1]; rfl
        · exact ih _ _ _ _ e h1

lemma detectFromCodeowners_trace (d : Detector) (org repo : String) :
    ∀ e ∈ (d.detectFromCodeowners org repo).2, e.isGetContents = true :=
  codeownersLoop_trace codeownersPaths d org repo none

lemma detectFromTeams_trace (d : Detector) (org repo : String) :
    ∀ e ∈ (d.detectFromTeams org repo).2, e = ApiCall.listTeams org repo := by
  intro e he
  cases hc : d.client with
  | none => simp [Detector.detectFromTeams, hc] at he
  | some c =>
    cases ht : c.listTeams org repo with
    | error s =>
      simp only [Detector.detectFromTeams, hc, ht, List.mem_singleton] at he
      exact he
    | ok ts =>
      by_cases hz : (teamsLoop org [] ts).length = 0
      · simp only [Detector.detectFromTeams, hc, ht, if_pos hz, List.mem_singleton] at he
        exact he
      · simp only [Detector.detectFromTeams, hc, ht, if_neg hz, List.mem_singleton] at he
        exact he

lemma isGetContents_not_collab (e : ApiCall) (h : e.isGetContents = true) :
    e.isListCollaborators = false := by
  cases e <;> simp_all [ApiCall.isGetContents, ApiCall.isListCollaborators]

/-- C2: when the ownership-file strategy yields a non-empty handle list,
DetectOwners returns exactly that list with only file-fetch calls in its
trace (so neither the teams nor the collaborators query is invoked); and
whenever the teams strategy would yield a non-empty result, the
collaborators query is never invoked. -/
theorem detectOwners_priority_ordering (d : Detector) (org repo : String) :
    (∀ owners t1, d.detectFromCodeowners org repo = (Except.ok owners, t1) → owners ≠ [] →
        d.DetectOwners org repo = (Except.ok owners, t1)
        ∧ ∀ e ∈ t1, e.isGetContents = true)
    ∧ (∀ owners2, okNonEmpty (d.detectFromTeams org repo).1 = some owners2 →
        ∀ e ∈ (d.DetectOwners org repo).2, e.isListCollaborators = false) := by
  constructor
  · intro owners t1 h hne
    have h1 : okNonEmpty (d.detectFromCodeowners org repo).1 = some owners := by
      rw [h]
      exact okNonEmpty_ok owners hne
    refine ⟨by simp [Detector.DetectOwners, h, okNonEmpty_ok owners hne], ?_⟩
    intro e he
    have ht1 : (d.detectFromCodeowners org repo).2 = t1 := by rw [h]
    exact detectFromCodeowners_trace d org repo e (ht1 ▸ he)
  · intro owners2 h2 e he
    cases h1 : okNonEmpty (d.detectFromCodeowners org repo).1 with
    | some o1 =>
      simp only [Detector.DetectOwners, h1] at he
      exact isGetContents_not_collab e (detectFromCodeowners_trace d org repo e he)
    | none =>
      simp only [Detector.DetectOwners, h1, h2] at he
      rcases List.mem_append.mp he with hA | hA
      · exact isGetContents_not_collab e (detectFromCodeowners_trace d org repo e hA)
      · rw [detectFromTeams_trace d org repo e hA]; rfl

/-- C2 witness: a detector whose first CODEOWNERS path yields a handle
returns it with a trace consisting of the single file fetch. -/
theorem detectOwners_priority_ordering_witness :
    (Detector.mk (some ⟨fun _ _ => Except.error "unused", fun _ _ => Except.error "unused",
        fun _ _ p => if p = ".github/CODEOWNERS" then Except.ok "@u" else Except.error "nf"⟩)
        "d").DetectOwners "o" "r"
      = (Except.ok ["@u"], [ApiCall.getContents "o" "r" ".github/CODEOWNERS"]) :=
  ((detectOwners_priority_ordering _ "o" "r").1 ["@u"]
    [ApiCall.getContents "o" "r" ".github/CODEOWNERS"] (by decide) (by decide)).1

/-! ## The ownership-file strategy path loop (C3) -/

/-- Spec-style description of the path loop as amended: the result is
the extraction at the first successfully fetched path whose content
yields at least one handle; if no path qualifies, the strategy fails. -/
def specFirstOwners (fetch : String → Except String String) : List String → Option (List String)
  | [] => none
  | p :: rest =>
    match fetch p with
    | Except.error _ => specFirstOwners fetch rest
    | Except.ok content =>
      if (extractOwnersFromCodeowners content).length > 0
      then some (extractOwnersFromCodeowners content)
      else specFirstOwners fetch rest

lemma codeownersLoop_spec :
    ∀ (paths : List String) (d : Detector) (org repo : String)
      (lastErr : Option String) (owners : List String),
      ((codeownersLoop d org repo lastErr paths).1 = Except.ok owners
        ↔ specFirstOwners (fun p => (d.fetchFile org repo p).1) paths = some owners) := by
  intro paths
  induction paths with
  | nil =>
    intro d org repo lastErr owners
    rw [codeownersLoop.eq_def]
    cases lastErr <;> simp [specFirstOwners]
  | cons p rest ih =>
    intro d org repo lastErr owners
    rw [codeownersLoop.eq_def]
    simp only [specFirstOwners]
    cases hf : (d.fetchFile org repo p).1 with
    | error e =>
      simp only [hf]
      simpa using ih d org repo (some e) owners
    | ok content =>
      simp only [hf]
      by_cases hl : (extractOwnersFromCodeowners content).length > 0
      · simp [hl]
      · simp only [hl, if_neg, ite_false]
        simpa [hl] using ih d org repo
          (some ("no valid owners found in " ++ p)) owners

/-- C3 (amended): the candidate paths are fixed and tried in order, and
the strategy succeeds with exactly the extraction of the first
successfully fetched path whose content yields at least one handle
(falling through only when no path qualifies). -/
theorem codeowners_strategy_characterization (d : Detector) (org repo : String) :
    codeownersPaths = [".github/CODEOWNERS", "CODEOWNERS", "docs/CODEOWNERS"]
    ∧ ∀ owners, ((d.detectFromCodeowners org repo).1 = Except.ok owners
        ↔ specFirstOwners (fun p => (d.fetchFile org repo p).1) codeownersPaths
            = some owners) :=
  ⟨rfl, fun owners => codeownersLoop_spec codeownersPaths d org repo none owners⟩

/-- C3 counterexample: the first successfully fetched path yields zero
valid handles, yet the strategy does not fail as the claim states: it
goes on to the next path and succeeds with its handles. -/
theorem codeowners_first_fetch_counterexample :
    ((Detector.mk (some ⟨fun _ _ => Except.error "unused", fun _ _ => Except.error "unused",
        fun _ _ p =>
          if p = ".github/CODEOWNERS" then Except.ok "no handles here"
          else if p = "CODEOWNERS" then Except.ok "@user1"
          else Except.error "not found"⟩) "d").fetchFile "o" "r" ".github/CODEOWNERS").1
      = Except.ok "no handles here"
    ∧ extractOwnersFromCodeowners "no handles here" = []
    ∧ ((Detector.mk (some ⟨fun _ _ => Except.error "unused", fun _ _ => Except.error "unused",
        fun _ _ p =>
          if p = ".github/CODEOWNERS" then Except.ok "no handles here"
          else if p = "CODEOWNERS" then Except.ok "@user1"
          else Except.error "not found"⟩) "d").detectFromCodeowners "o" "r").1
      = Except.ok ["@user1"] :=
  ⟨by decide, by decide, by decide⟩

/-! ## Leading at-sign of produced handles (C6) -/

lemma teamsLoop_head (org : String) :
    ∀ (ts : List Team) (acc : List String) (x : String), x ∈ teamsLoop org acc ts →
      x ∈ acc ∨ x.data.head? = some '@' := by
  intro ts
  induction ts with
  | nil =>
    intro acc x h
    simp only [teamsLoop] at h
    exact Or.inl h
  | cons t rest ih =>
    intro acc x h
    simp only [teamsLoop] at h
    split at h
    · split at h
      · rcases List.mem_append.mp h with h1 | h1
        · exact Or.inl h1
        · simp only [List.mem_singleton] at h1
          refine Or.inr ?_
          subst h1
          simp [String.data_append]
      · rcases ih _ _ h with h1 | h1
        · rcases List.mem_append.mp h1 with h2 | h2
          · exact Or.inl h2
          · simp only [List.mem_singleton] at h2
            refine Or.inr ?_
            subst h2
            simp [String.data_append]
        · exact Or.inr h1
    · exact ih _ _ h

lemma collabLoop_head :
    ∀ (cs : List Collaborator) (acc : List String) (x : String), x ∈ collabLoop acc cs →
      x ∈ acc ∨ x.data.head? = some '@' := by
  intro cs
  induction cs with
  | nil =>
    intro acc x h
    simp only [collabLoop] at h
    exact Or.inl h
  | cons c rest ih =>
    intro acc x h
    simp only [collabLoop] at h
    split at h
    · split at h
      · rcases List.mem_append.mp h with h1 | h1
        · exact Or.inl h1
        · simp only [List.mem_singleton] at h1
          refine Or.inr ?_
          subst h1
          simp [String.data_append]
      · rcases ih _ _ h with h1 | h1
        · rcases List.mem_append.mp h1 with h2 | h2
          · exact Or.inl h2
          · simp only [List.mem_singleton] at h2
            refine Or.inr ?_
            subst h2
            simp [String.data_append]
        · exact Or.inr h1
    · exact ih _ _ h

/-- C6 (amended): every handle returned by DetectOwners carries a
leading at-sign provided the configured default owner is empty (so the
hardcoded literal is used) or itself starts with the at-sign; handles
from the file, teams, and collaborators strategies always carry it, but
the final fallback returns the configured default verbatim. -/
theorem handles_at_prefix_amended (client : Option GitHubAPI) (defaultOwner org repo : String)
    (hdef : defaultOwner = "" ∨ defaultOwner.data.head? = some '@')
    (owners : List String)
    (h : ((NewDetector client defaultOwner).DetectOwners org repo).1 = Except.ok owners) :
    ∀ o ∈ owners, o.data.head? = some '@' := by
  intro o ho
  revert h
  simp only [Detector.DetectOwners]
  cases h1 : okNonEmpty ((NewDetector client defaultOwner).detectFromCodeowners org repo).1 with
  | some o1 =>
    intro h
    simp only at h
    cases h
    obtain ⟨hr, _⟩ := okNonEmpty_some _ _ h1
    obtain ⟨⟨content, hco⟩, _⟩ := detectFromCodeowners_ok _ org repo owners hr
    exact extract_head_at content o (hco ▸ ho)
  | none =>
    cases h2 : okNonEmpty ((NewDetector client defaultOwner).detectFromTeams org repo).1 with
    | some o2 =>
      intro h
      simp only at h
      cases h
      obtain ⟨hr, _⟩ := okNonEmpty_some _ _ h2
      obtain ⟨⟨ts, hts⟩, _⟩ := detectFromTeams_ok _ org repo owners hr
      rcases teamsLoop_head org ts [] o (hts ▸ ho) with h3 | h3
      · simp at h3
      · exact h3
    | none =>
      cases h3 : okNonEmpty ((NewDetector client defaultOwner).detectFromCollaborators org repo).1 with
      | some o3 =>
        intro h
        simp only at h
        cases h
        obtain ⟨hr, _⟩ := okNonEmpty_some _ _ h3
        obtain ⟨⟨cs, hcs⟩, _⟩ := detectFromCollaborators_ok _ org repo owners hr
        rcases collabLoop_head cs [] o (hcs ▸ ho) with h4 | h4
        · simp at h4
        · exact h4
      | none =>
        intro h
        simp only at h
        cases h
        simp only [List.mem_singleton] at ho
        subst ho
        rcases hdef with h0 | h0
        · simp [NewDetector, h0]
        · by_cases hE : defaultOwner = ""
          · simp [NewDetector, hE]
          · simpa [NewDetector, hE] using h0

/-- C6 witness: a detector configured with an at-prefixed default owner
and no client returns only at-prefixed handles. -/
theorem handles_at_prefix_amended_witness :
    ("@team").data.head? = some '@' :=
  handles_at_prefix_amended none "@team" "o" "r" (Or.inr (by decide)) ["@team"]
    (by decide) "@team" (by decide)

/-- C6 counterexample: with a non-empty configured default owner that
omits the at-sign, the fallback result of DetectOwners carries no
leading at-sign, refuting the claim as stated. -/
theorem handles_at_prefix_counterexample :
    ((NewDetector none "vanguard-team").DetectOwners "o" "r").1 = Except.ok ["vanguard-team"]
    ∧ ("vanguard-team").data.head? ≠ some '@' :=
  ⟨by decide, by decide⟩

/-! ## Configuration writer (internal/config/config.go) -/

/-- Character class of the Go regex `[a-zA-Z0-9_-]` in `repoNamePattern`. -/
def isRepoChar (c : Char) : Bool :=
  c.isAlpha || c.isDigit || c = '_' || c = '-'

/-- Split a character list at every occurrence of the separator (models
`strings.Split`: one segment more than the number of separators, so the
empty input gives one empty segment). -/
def splitOnChar (sep : Char) : List Char → List (List Char)
  | [] => [[]]
  | c :: rest =>
    if c = sep then [] :: splitOnChar sep rest
    else
      match splitOnChar sep rest with
      | [] => [[c]]
      | l :: ls => (c :: l) :: ls

/-- Join character-list segments with a separator (models `strings.Join`). -/
def joinWithChar (sep : Char) : List (List Char) → List Char
  | [] => []
  | [l] => l
  | l :: ls => l ++ sep :: joinWithChar sep ls

/-- Embedding of `repoNamePattern.MatchString` for the anchored regex
`[a-zA-Z0-9_-]+/[a-zA-Z0-9_-]+`: since the allowed characters exclude
the slash, a full match is exactly a split at a single slash into two
non-empty runs of allowed characters. -/
def repoNameMatches (s : String) : Bool :=
  match splitOnChar '/' s.data with
  | [a, b] => !a.isEmpty && !b.isEmpty && a.all isRepoChar && b.all isRepoChar
  | _ => false

/-- Go `unicode.IsSpace` on the Latin-1 range (space classes beyond
Latin-1 are not modelled; no claim depends on them). -/
def isSpaceChar (c : Char) : Bool :=
  c = ' ' || c = '\t' || c = '\n' || c = '\r'
    || c.toNat = 11 || c.toNat = 12 || c.toNat = 133 || c.toNat = 160

/-- Embedding of `strings.TrimSpace` on character lists. -/
def trimChars (l : List Char) : List Char :=
  ((l.dropWhile isSpaceChar).reverse.dropWhile isSpaceChar).reverse

/-- Embedding of `strings.TrimSpace`. -/
def goTrimSpace (s : String) : String :=
  String.mk (trimChars s.data)

/-- Repository configuration record (the `yaml` field tags only shape
the out-of-scope serialization). -/
structure RepositoryConfig where
  Name : String
  ExcludeDirs : List String
  ExcludeFiles : List String
  Owners : List String

/-- Modelled from the spec: the YAML serialization layer (`yaml.Marshal`)
is excluded scope in the spec, so the marshalled bytes are modelled as a
deterministic rendering; marshalling a configuration record never fails
and no claim depends on the shape of these bytes. -/
def yamlMarshal (cfg : RepositoryConfig) : String :=
  "name: " ++ cfg.Name ++ "\n"

/-- Filesystem state: a map from paths to file contents (`none` is the
absent file, matching the `os.IsNotExist` branch); other I/O failures
and directory creation (`os.MkdirAll`) are outside the model. -/
def FS : Type := String → Option String

/-- Overwrite of one path (models `os.WriteFile`). -/
def FS.write (fs : FS) (path content : String) : FS :=
  fun p => if p = path then some content else fs p

/-- Simplified `filepath.Join` (enough for the paths the writer builds;
no claim depends on path cleaning). -/
def filepathJoin (a b : String) : String :=
  a ++ "/" ++ b

/-- Simplified `filepath.Dir`: everything before the final slash, or a
dot when there is none. -/
def filepathDir (p : String) : String :=
  match splitOnChar '/' p.data with
  | [_] => "."
  | parts => String.mk (joinWithChar '/' parts.dropLast)

/-- Writer state fixed at construction. -/
structure Writer where
  reposDir : String
  codeownersFile : String

/-- Embedding of `NewWriter`. -/
def NewWriter (reposDir codeownersFile : String) : Writer :=
  { reposDir := reposDir, codeownersFile := codeownersFile }

/-- Embedding of `getFilename`: the part after the slash plus the yaml
suffix.  Go indexes `parts[1]`, which panics without a slash; that point
is unreachable because `Write` validates the name first, and the model
totalizes the access with a default. -/
def Writer.getFilename (_ : Writer) (repoName : String) : String :=
  String.mk ((splitOnChar '/' repoName.data).getD 1 []) ++ ".yaml"

/-- Embedding of `matchesPattern`: take the text before the first hash
character, trim it, and compare with the pattern (equal, or the pattern
followed by a space). -/
def matchesPattern (line pattern : String) : Bool :=
  let trimmed := trimChars (line.data.takeWhile fun c => c != '#')
  trimmed == pattern.data || (pattern.data ++ [' ']).isPrefixOf trimmed

/-- Replace the first line matching the pattern (the indexed search loop
of `updateCodeowners`); `none` when no line matches. -/
def replaceFirst (pattern newEntry : String) : List String → Option (List String)
  | [] => none
  | l :: rest =>
    if matchesPattern l pattern then some (newEntry :: rest)
    else (replaceFirst pattern newEntry rest).map (l :: ·)

/-- Normalization loop of `normalizeOwners`: trim, drop empties, ensure
the at-sign prefix, deduplicate via the `seen` map. -/
def normalizeLoop (seen result : List String) : List String → List String
  | [] => result
  | o :: rest =>
    let t := trimChars o.data
    if t = [] then normalizeLoop seen result rest
    else
      let owner := String.mk (if t.head? = some '@' then t else '@' :: t)
      if owner ∈ seen then normalizeLoop seen result rest
      else normalizeLoop (owner :: seen) (result ++ [owner]) rest

/-- Embedding of `normalizeOwners`. -/
def normalizeOwners (owners : List String) : List String :=
  normalizeLoop [] [] owners

/-- Embedding of `strings.Join(xs, " ")`. -/
def joinSpace (xs : List String) : String :=
  String.mk (joinWithChar ' ' (xs.map String.data))

/-- Line list read back from the CODEOWNERS file: a missing file gives
no lines (the `os.IsNotExist` branch), otherwise `strings.Split` on
newlines. -/
def linesOfOpt : Option String → List String
  | none => []
  | some data => (splitOnChar '\n' data.data).map String.mk

/-- Line update step of `updateCodeowners`: replace the first matching
line, or append the new entry (preceded by a blank line when the file
ends in a non-empty line). -/
def buildLines (pattern newEntry : String) (lines : List String) : List String :=
  match replaceFirst pattern newEntry lines with
  | some ls => ls
  | none =>
    (if lines ≠ [] ∧ lines.getLast? ≠ some "" then lines ++ [""] else lines) ++ [newEntry]

/-- Embedding of `writeCodeowners` content construction: join the lines
with newlines and ensure a trailing newline. -/
def renderLines (lines : List String) : String :=
  String.mk
    (let content := joinWithChar '\n' (lines.map String.data)
     if content.getLast? = some '\n' then content else content ++ ['\n'])

/-- Embedding of `updateCodeowners` as a state transformer on the
filesystem, returning the possible error alongside the new state. -/
def Writer.updateCodeowners (w : Writer) (filename : String) (owners : List String)
    (fs : FS) : FS × Option String :=
  if owners.length = 0 then (fs, some ("no owners specified for " ++ filename))
  else
    match normalizeOwners owners with
    | [] => (fs, some ("all owners for " ++ filename ++ " were invalid after normalization"))
    | normalizedOwners =>
      (fs.write w.codeownersFile
        (renderLines (buildLines ("/repos/" ++ filename)
          ("/repos/" ++ filename ++ " " ++ joinSpace normalizedOwners)
          (linesOfOpt (fs w.codeownersFile)))), none)

/-- Embedding of `Write`: validate the name (empty after trimming, then
the allowlist regex), write the YAML config file, and update CODEOWNERS
unless in dry run; errors are returned with the filesystem reached so
far. -/
def Writer.Write (w : Writer) (cfg : RepositoryConfig) (dryRun : Bool) (fs : FS) :
    FS × Option String :=
  if goTrimSpace cfg.Name = "" then (fs, some "repository name cannot be empty")
  else if repoNameMatches cfg.Name = false then
    (fs, some ("invalid repository name: " ++ cfg.Name))
  else
    let filename := w.getFilename cfg.Name
    let targetPath :=
      if dryRun then
        filepathJoin (filepathJoin (filepathDir w.reposDir) "discovered-repos") filename
      else filepathJoin w.reposDir filename
    let fs1 := fs.write targetPath (yamlMarshal cfg)
    if dryRun then (fs1, none)
    else
      match w.updateCodeowners filename cfg.Owners fs1 with
      | (fs2, some e) => (fs2, some ("failed to update CODEOWNERS: " ++ e))
      | (fs2, none) => (fs2, none)

/-! ## Validation of repository names (C9) -/

/-- C9: Write returns an error for every configuration whose name fails
the allowlist pattern, and in that case the filesystem — config files
and CODEOWNERS alike — is left unchanged, because validation precedes
every write. -/
theorem write_rejects_invalid_names (w : Writer) (cfg : RepositoryConfig) (dryRun : Bool)
    (fs : FS) (h : repoNameMatches cfg.Name = false) :
    (w.Write cfg dryRun fs).2.isSome = true ∧ (w.Write cfg dryRun fs).1 = fs := by
  by_cases hE : goTrimSpace cfg.Name = ""
  · simp [Writer.Write, hE]
  · simp [Writer.Write, hE, h]

/-- C9 witness: a directory-traversal name is rejected with an error. -/
theorem write_rejects_invalid_names_witness :
    repoNameMatches "../etc/passwd" = false
    ∧ ((NewWriter "repos" "CODEOWNERS").Write ⟨"../etc/passwd", [], [], ["@t"]⟩ false
        (fun _ => none)).2.isSome = true :=
  ⟨by decide, (write_rejects_invalid_names (NewWriter "repos" "CODEOWNERS")
      ⟨"../etc/passwd", [], [], ["@t"]⟩ false (fun _ => none) (by decide)).1⟩

/-- C10 counterexample: an owner handle with an embedded newline defeats
idempotence — the entry is written as two physical lines, and the second
write re-reads the stray second line and keeps it while rewriting the
entry, so the file grows. -/
theorem write_idempotence_counterexample :
    (((NewWriter "repos" "CO").Write ⟨"org/x", [], [], ["a\nb"]⟩ false (fun _ => none)).1) "CO"
      = some "/repos/x.yaml @a\nb\n"
    ∧ (((NewWriter "repos" "CO").Write ⟨"org/x", [], [], ["a\nb"]⟩ false
        (((NewWriter "repos" "CO").Write ⟨"org/x", [], [], ["a\nb"]⟩ false
          (fun _ => none)).1)).1) "CO"
      = some "/repos/x.yaml @a\nb\nb\n"
    ∧ some "/repos/x.yaml @a\nb\nb\n" ≠ some "/repos/x.yaml @a\nb\n" :=
  ⟨by decide, by decide, by decide⟩

/-! ## Split and join lemmas for the CODEOWNERS line discipline -/

lemma splitOnChar_ne_nil (sep : Char) : ∀ l : List Char, splitOnChar sep l ≠ [] := by
  intro l
  induction l with
  | nil => simp [splitOnChar]
  | cons c rest ih =>
    simp only [splitOnChar]
    split
    · simp
    · split
      · simp
      · simp

lemma splitOnChar_not_mem (sep : Char) :
    ∀ (l seg : List Char), seg ∈ splitOnChar sep l → sep ∉ seg := by
  intro l
  induction l with
  | nil =>
    intro seg h
    simp only [splitOnChar, List.mem_singleton] at h
    simp [h]
  | cons c rest ih =>
    intro seg h
    simp only [splitOnChar] at h
    split at h
    · rcases List.mem_cons.mp h with h1 | h1
      · simp [h1]
      · exact ih _ h1
    · rename_i hcs
      cases hs : splitOnChar sep rest with
      | nil => exact absurd hs (splitOnChar_ne_nil sep rest)
      | cons l0 ls =>
        rw [hs] at h
        rcases List.mem_cons.mp h with h1 | h1
        · subst h1
          intro hmem
          rcases List.mem_cons.mp hmem with h2 | h2
          · exact hcs h2.symm
          · exact ih l0 (hs ▸ List.mem_cons_self _ _) h2
        · exact ih _ (hs ▸ List.mem_cons_of_mem _ h1)

lemma joinWithChar_cons_cons (sep c : Char) (l0 : List Char) (ls : List (List Char)) :
    joinWithChar sep ((c :: l0) :: ls) = c :: joinWithChar sep (l0 :: ls) := by
  cases ls with
  | nil => rfl
  | cons l1 ls1 => simp [joinWithChar]

lemma joinWithChar_splitOnChar (sep : Char) :
    ∀ l : List Char, joinWithChar sep (splitOnChar sep l) = l := by
  intro l
  induction l with
  | nil => rfl
  | cons c rest ih =>
    simp only [splitOnChar]
    split
    · rename_i hcs
      subst hcs
      cases hs : splitOnChar c rest with
      | nil => exact absurd hs (splitOnChar_ne_nil c rest)
      | cons l0 ls =>
        rw [hs] at ih
        simp [joinWithChar, ih]
    · cases hs : splitOnChar sep rest with
      | nil => exact absurd hs (splitOnChar_ne_nil sep rest)
      | cons l0 ls =>
        rw [hs] at ih
        rw [joinWithChar_cons_cons, ih]

lemma splitOnChar_of_not_mem (sep : Char) :
    ∀ l : List Char, sep ∉ l → splitOnChar sep l = [l] := by
  intro l
  induction l with
  | nil => intro _; rfl
  | cons c rest ih =>
    intro h
    have hc : ¬ c = sep := fun hh => h (hh ▸ List.mem_cons_self _ _)
    have hrest : sep ∉ rest := fun hh => h (List.mem_cons_of_mem _ hh)
    simp only [splitOnChar, if_neg hc, ih hrest]

lemma splitOnChar_append_cons (sep : Char) :
    ∀ (l t : List Char), sep ∉ l →
      splitOnChar sep (l ++ sep :: t) = l :: splitOnChar sep t := by
  intro l
  induction l with
  | nil => intro t _; simp [splitOnChar]
  | cons c rest ih =>
    intro t h
    have hc : ¬ c = sep := fun hh => h (hh ▸ List.mem_cons_self _ _)
    have hrest : sep ∉ rest := fun hh => h (List.mem_cons_of_mem _ hh)
    simp only [List.cons_append, splitOnChar, if_neg hc]
    rw [show rest.append (sep :: t) = rest ++ sep :: t from rfl, ih t hrest]

lemma splitOnChar_joinWithChar (sep : Char) :
    ∀ L : List (List Char), L ≠ [] → (∀ seg ∈ L, sep ∉ seg) →
      splitOnChar sep (joinWithChar sep L) = L := by
  intro L
  induction L with
  | nil => intro h _; exact absurd rfl h
  | cons l ls ih =>
    intro _ hseg
    cases ls with
    | nil =>
      simp only [joinWithChar]
      exact splitOnChar_of_not_mem sep l (hseg l (List.mem_cons_self _ _))
    | cons l1 ls1 =>
      have hjoin : joinWithChar sep (l :: l1 :: ls1) = l ++ sep :: joinWithChar sep (l1 :: ls1) :=
        rfl
      rw [hjoin, splitOnChar_append_cons sep l _ (hseg l (List.mem_cons_self _ _)),
        ih (by simp) (fun seg hm => hseg seg (List.mem_cons_of_mem _ hm))]

lemma joinWithChar_append_nil (sep : Char) :
    ∀ A : List (List Char), A ≠ [] →
      joinWithChar sep (A ++ [[]]) = joinWithChar sep A ++ [sep] := by
  intro A
  induction A with
  | nil => intro h; exact absurd rfl h
  | cons a A1 ih =>
    intro _
    cases A1 with
    | nil => rfl
    | cons a2 A2 =>
      have h1 : joinWithChar sep ((a :: a2 :: A2) ++ [[]])
          = a ++ sep :: joinWithChar sep ((a2 :: A2) ++ [[]]) := rfl
      rw [h1, ih (by simp)]
      simp [joinWithChar]

lemma joinWithChar_mem (sep : Char) :
    ∀ (A : List (List Char)) (x : Char), x ∈ joinWithChar sep A →
      x = sep ∨ ∃ a ∈ A, x ∈ a := by
  intro A
  induction A with
  | nil => intro x h; simp [joinWithChar] at h
  | cons a A1 ih =>
    intro x h
    cases A1 with
    | nil =>
      simp only [joinWithChar] at h
      exact Or.inr ⟨a, List.mem_cons_self _ _, h⟩
    | cons a2 A2 =>
      have h1 : joinWithChar sep (a :: a2 :: A2) = a ++ sep :: joinWithChar sep (a2 :: A2) := rfl
      rw [h1] at h
      rcases List.mem_append.mp h with h2 | h2
      · exact Or.inr ⟨a, List.mem_cons_self _ _, h2⟩
      · rcases List.mem_cons.mp h2 with h3 | h3
        · exact Or.inl h3
        · rcases ih x h3 with h4 | ⟨b, hb1, hb2⟩
          · exact Or.inl h4
          · exact Or.inr ⟨b, List.mem_cons_of_mem _ hb1, hb2⟩

/-! ## Replace-first lemmas -/

lemma replaceFirst_found (pattern e : String) :
    ∀ (pre : List String) (x : String) (post : List String),
      (∀ y ∈ pre, matchesPattern y pattern = false) → matchesPattern x pattern = true →
      replaceFirst pattern e (pre ++ x :: post) = some (pre ++ e :: post) := by
  intro pre
  induction pre with
  | nil => intro x post _ hx; simp [replaceFirst, hx]
  | cons p pre1 ih =>
    intro x post hpre hx
    have hp : matchesPattern p pattern = false := hpre p (List.mem_cons_self _ _)
    simp [replaceFirst, hp, ih x post (fun y hy => hpre y (List.mem_cons_of_mem _ hy)) hx]

lemma replaceFirst_none (pattern e : String) :
    ∀ L : List String, replaceFirst pattern e L = none →
      ∀ y ∈ L, matchesPattern y pattern = false := by
  intro L
  induction L with
  | nil => intro _ y hy; simp at hy
  | cons l rest ih =>
    intro h y hy
    simp only [replaceFirst] at h
    split at h
    · cases h
    · rename_i hl
      rcases List.mem_cons.mp hy with h1 | h1
      · subst h1; simpa using hl
      · cases hr : replaceFirst pattern e rest with
        | none => exact ih hr y h1
        | some R => rw [hr] at h; simp at h

lemma replaceFirst_spec (pattern e : String) :
    ∀ (L L2 : List String), replaceFirst pattern e L = some L2 →
      ∃ pre x post, L = pre ++ x :: post ∧ L2 = pre ++ e :: post
        ∧ (∀ y ∈ pre, matchesPattern y pattern = false)
        ∧ matchesPattern x pattern = true := by
  intro L
  induction L with
  | nil => intro L2 h; simp [replaceFirst] at h
  | cons l rest ih =>
    intro L2 h
    simp only [replaceFirst] at h
    split at h
    · rename_i hl
      cases h
      exact ⟨[], l, rest, by simp, by simp, by simp, hl⟩
    · rename_i hl
      cases hr : replaceFirst pattern e rest with
      | none => rw [hr] at h; simp at h
      | some R =>
        rw [hr] at h
        simp only [Option.map_some'] at h
        cases h
        obtain ⟨pre, x, post, hA, hB, hC, hD⟩ := ih R hr
        refine ⟨l :: pre, x, post, by simp [hA], by simp [hB], ?_, hD⟩
        intro y hy
        rcases List.mem_cons.mp hy with h5 | h5
        · subst h5; simpa using hl
        · exact hC y h5

lemma buildLines_decomp (pattern e : String) (lines : List String)
    (hempty : matchesPattern "" pattern = false) :
    ∃ pre post, buildLines pattern e lines = pre ++ e :: post
      ∧ ∀ y ∈ pre, matchesPattern y pattern = false := by
  cases hr : replaceFirst pattern e lines with
  | some ls =>
    obtain ⟨pre, x, post, hA, hB, hC, hD⟩ := replaceFirst_spec pattern e lines ls hr
    exact ⟨pre, post, by simp [buildLines, hr, hB], hC⟩
  | none =>
    have hall := replaceFirst_none pattern e lines hr
    refine ⟨(if lines ≠ [] ∧ lines.getLast? ≠ some "" then lines ++ [""] else lines), [],
      by simp [buildLines, hr], ?_⟩
    intro y hy
    split at hy
    · rcases List.mem_append.mp hy with h1 | h1
      · exact hall y h1
      · simp only [List.mem_singleton] at h1
        subst h1
        exact hempty
    · exact hall y hy

lemma buildLines_mem (pattern e : String) (lines : List String) (s : String)
    (h : s ∈ buildLines pattern e lines) : s ∈ lines ∨ s = e ∨ s = "" := by
  revert h
  cases hr : replaceFirst pattern e lines with
  | some ls =>
    intro h
    simp only [buildLines, hr] at h
    obtain ⟨pre, x, post, hA, hB, _, _⟩ := replaceFirst_spec pattern e lines ls hr
    subst hA hB
    rcases List.mem_append.mp h with h1 | h1
    · exact Or.inl (List.mem_append.mpr (Or.inl h1))
    · rcases List.mem_cons.mp h1 with h2 | h2
      · exact Or.inr (Or.inl h2)
      · exact Or.inl (List.mem_append.mpr (Or.inr (List.mem_cons_of_mem _ h2)))
  | none =>
    intro h
    simp only [buildLines, hr] at h
    rcases List.mem_append.mp h with h1 | h1
    · split at h1
      · rcases List.mem_append.mp h1 with h2 | h2
        · exact Or.inl h2
        · simp only [List.mem_singleton] at h2
          exact Or.inr (Or.inr h2)
      · exact Or.inl h1
    · simp only [List.mem_singleton] at h1
      exact Or.inr (Or.inl h1)

/-! ## Pattern-matching lemmas for CODEOWNERS lines -/

lemma matchesPattern_empty (pattern : String) (hp : pattern.data ≠ []) :
    matchesPattern "" pattern = false := by
  cases hd : pattern.data with
  | nil => exact absurd hd hp
  | cons c cs =>
    simp [matchesPattern, hd, trimChars, List.isPrefixOf]

lemma takeWhile_append_all {p : Char → Bool} :
    ∀ (a b : List Char), (∀ x ∈ a, p x = true) → (a ++ b).takeWhile p = a ++ b.takeWhile p := by
  intro a
  induction a with
  | nil => simp
  | cons c a1 ih =>
    intro b h
    have hc := h c (List.mem_cons_self _ _)
    simp only [List.cons_append, List.takeWhile_cons, hc, if_true]
    rw [ih b (fun x hx => h x (List.mem_cons_of_mem _ hx))]

lemma dropWhile_append_all {p : Char → Bool} (a b : List Char)
    (h : ∀ x ∈ a, p x = true) : (a ++ b).dropWhile p = b.dropWhile p := by
  rw [List.dropWhile_append]
  simp [List.dropWhile_eq_nil_iff.mpr h]

lemma dropWhile_append_ne {p : Char → Bool} (a b : List Char) (h : a.dropWhile p ≠ []) :
    (a ++ b).dropWhile p = a.dropWhile p ++ b := by
  rw [List.dropWhile_append]
  simp [List.isEmpty_iff, h]

lemma matchesPattern_entry (pattern : String) (t : List Char)
    (hhead : ∃ c rest, pattern.data = c :: rest ∧ isSpaceChar c = false)
    (hlast : ∃ c pre2, pattern.data = pre2 ++ [c] ∧ isSpaceChar c = false)
    (hhash : '#' ∉ pattern.data) :
    matchesPattern (String.mk (pattern.data ++ ' ' :: t)) pattern = true := by
  have htake : ((pattern.data ++ ' ' :: t).takeWhile fun c => c != '#')
      = pattern.data ++ ' ' :: (t.takeWhile fun c => c != '#') := by
    rw [takeWhile_append_all pattern.data _ (fun x hx => by
      simp only [bne_iff_ne, ne_eq]
      exact fun heq => hhash (heq ▸ hx))]
    simp [List.takeWhile_cons]
  set t2 := t.takeWhile fun c => c != '#' with ht2
  simp only [matchesPattern]
  rw [htake]
  obtain ⟨c0, rest0, hpd0, hc0⟩ := hhead
  have hfront : (pattern.data ++ ' ' :: t2).dropWhile isSpaceChar
      = pattern.data ++ ' ' :: t2 := by
    rw [hpd0, List.cons_append, List.dropWhile_cons, hc0]
    simp
  unfold trimChars
  rw [hfront]
  have hrev : (pattern.data ++ ' ' :: t2).reverse
      = (t2.reverse ++ [' ']) ++ pattern.data.reverse := by
    simp
  rw [hrev]
  rcases hr : t2.reverse.dropWhile isSpaceChar with _ | ⟨x, r1⟩
  · have hall : ∀ y ∈ t2.reverse, isSpaceChar y = true := List.dropWhile_eq_nil_iff.mp hr
    rw [dropWhile_append_all _ _ (by
      intro y hy
      rcases List.mem_append.mp hy with h1 | h1
      · exact hall y h1
      · simp only [List.mem_singleton] at h1
        subst h1
        rfl)]
    obtain ⟨cL, preL, hpdL, hcL⟩ := hlast
    have hback : pattern.data.reverse.dropWhile isSpaceChar = pattern.data.reverse := by
      rw [hpdL]
      simp [List.dropWhile_cons, hcL]
    rw [hback, List.reverse_reverse]
    simp
  · have hne : t2.reverse.dropWhile isSpaceChar ≠ [] := by rw [hr]; simp
    rw [List.append_assoc, dropWhile_append_ne _ _ hne]
    have : ((t2.reverse.dropWhile isSpaceChar) ++ ([' '] ++ pattern.data.reverse)).reverse
        = (pattern.data ++ [' ']) ++ (t2.reverse.dropWhile isSpaceChar).reverse := by
      simp
    rw [this]
    simp [List.isPrefixOf_iff_prefix, List.prefix_append]

/-! ## Normalization facts -/

lemma mk_data (s : String) : String.mk s.data = s := by cases s; rfl

lemma map_mk_map_data : ∀ l : List String, (l.map String.data).map String.mk = l := by
  intro l
  induction l with
  | nil => rfl
  | cons s rest ih => simp [ih, mk_data]

lemma trimChars_subset (l : List Char) : ∀ x ∈ trimChars l, x ∈ l := by
  intro x hx
  unfold trimChars at hx
  rw [List.mem_reverse] at hx
  have h1 := (List.dropWhile_sublist isSpaceChar).subset hx
  rw [List.mem_reverse] at h1
  exact (List.dropWhile_sublist isSpaceChar).subset h1

lemma normalizeLoop_no_newline :
    ∀ (owners seen res : List String), (∀ o ∈ owners, '\n' ∉ o.data) →
      ∀ u ∈ normalizeLoop seen res owners, u ∈ res ∨ '\n' ∉ u.data := by
  intro owners
  induction owners with
  | nil =>
    intro seen res _ u hu
    exact Or.inl (by simpa [normalizeLoop] using hu)
  | cons o rest ih =>
    intro seen res hnn u hu
    have hrest : ∀ x ∈ rest, '\n' ∉ x.data :=
      fun x hx => hnn x (List.mem_cons_of_mem _ hx)
    simp only [normalizeLoop] at hu
    split at hu
    · exact ih _ _ hrest u hu
    · split at hu
      · split at hu
        · exact ih _ _ hrest u hu
        · rcases ih _ _ hrest u hu with h1 | h1
          · rcases List.mem_append.mp h1 with h2 | h2
            · exact Or.inl h2
            · simp only [List.mem_singleton] at h2
              subst h2
              refine Or.inr ?_
              intro hmem
              exact hnn o (List.mem_cons_self _ _) (trimChars_subset _ _ hmem)
          · exact Or.inr h1
      · split at hu
        · exact ih _ _ hrest u hu
        · rcases ih _ _ hrest u hu with h1 | h1
          · rcases List.mem_append.mp h1 with h2 | h2
            · exact Or.inl h2
            · simp only [List.mem_singleton] at h2
              subst h2
              refine Or.inr ?_
              intro hmem
              have htno : '\n' ∉ trimChars o.data := fun hm =>
                hnn o (List.mem_cons_self _ _) (trimChars_subset _ _ hm)
              rcases List.mem_cons.mp hmem with h3 | h3
              · exact absurd h3 (by decide)
              · exact htno h3
          · exact Or.inr h1

lemma normalizeOwners_no_newline (owners : List String) (h : ∀ o ∈ owners, '\n' ∉ o.data) :
    ∀ u ∈ normalizeOwners owners, '\n' ∉ u.data := by
  intro u hu
  rcases normalizeLoop_no_newline owners [] [] h u hu with h1 | h1
  · simp at h1
  · exact h1

lemma joinSpace_no_newline (xs : List String) (h : ∀ x ∈ xs, '\n' ∉ x.data) :
    '\n' ∉ (joinSpace xs).data := by
  intro hmem
  rcases joinWithChar_mem ' ' (xs.map String.data) '\n' hmem with h1 | ⟨a, ha1, ha2⟩
  · exact absurd h1 (by decide)
  · obtain ⟨s, hs1, hs2⟩ := List.mem_map.mp ha1
    exact h s hs1 (hs2 ▸ ha2)

lemma linesOfOpt_no_newline (old : Option String) :
    ∀ s ∈ linesOfOpt old, '\n' ∉ s.data := by
  intro s hs
  cases old with
  | none => simp [linesOfOpt] at hs
  | some data =>
    simp only [linesOfOpt] at hs
    obtain ⟨seg, hseg, hmk⟩ := List.mem_map.mp hs
    intro hmem
    refine splitOnChar_not_mem '\n' data.data seg hseg ?_
    rw [← hmk] at hmem
    exact hmem

/-! ## Idempotence of the CODEOWNERS update (C10) -/

lemma linesOfOpt_render (L2 : List String) (hne : L2 ≠ [])
    (hnn : ∀ s ∈ L2, '\n' ∉ s.data) :
    linesOfOpt (some (renderLines L2)) = L2
    ∨ (linesOfOpt (some (renderLines L2)) = L2 ++ [""]
        ∧ renderLines (L2 ++ [""]) = renderLines L2) := by
  have hsegs : ∀ seg ∈ L2.map String.data, '\n' ∉ seg := by
    intro seg hseg
    obtain ⟨s, hs1, hs2⟩ := List.mem_map.mp hseg
    exact hs2 ▸ hnn s hs1
  have hmapne : L2.map String.data ≠ [] := by simpa using hne
  by_cases hc : (joinWithChar '\n' (L2.map String.data)).getLast? = some '\n'
  · left
    simp only [renderLines, if_pos hc, linesOfOpt]
    rw [splitOnChar_joinWithChar '\n' (L2.map String.data) hmapne hsegs]
    exact map_mk_map_data L2
  · right
    constructor
    · simp only [renderLines, if_neg hc, linesOfOpt]
      rw [← joinWithChar_append_nil '\n' _ hmapne]
      rw [splitOnChar_joinWithChar '\n' _ (by simp) (by
        intro seg hseg
        rcases List.mem_append.mp hseg with hA | hA
        · exact hsegs seg hA
        · simp only [List.mem_singleton] at hA
          subst hA
          simp)]
      rw [List.map_append, map_mk_map_data L2]
      rfl
    · have hc2 : joinWithChar '\n' ((L2 ++ [""]).map String.data)
          = joinWithChar '\n' (L2.map String.data) ++ ['\n'] := by
        rw [List.map_append]
        exact joinWithChar_append_nil '\n' _ hmapne
      simp only [renderLines, hc2]
      rw [if_pos (by rw [List.getLast?_concat]), if_neg hc]

lemma buildRender_idem (pattern e : String)
    (hme : matchesPattern e pattern = true)
    (hempty : matchesPattern "" pattern = false)
    (hnn : '\n' ∉ e.data)
    (old : Option String) :
    renderLines (buildLines pattern e (linesOfOpt
      (some (renderLines (buildLines pattern e (linesOfOpt old))))))
      = renderLines (buildLines pattern e (linesOfOpt old)) := by
  obtain ⟨pre, post, hdec, hpre⟩ := buildLines_decomp pattern e (linesOfOpt old) hempty
  have hL2nn : ∀ s ∈ buildLines pattern e (linesOfOpt old), '\n' ∉ s.data := by
    intro s hs
    rcases buildLines_mem pattern e (linesOfOpt old) s hs with hA | hA | hA
    · exact linesOfOpt_no_newline old s hA
    · exact hA ▸ hnn
    · subst hA
      simp [show ("" : String).data = [] from rfl]
  have hL2ne : buildLines pattern e (linesOfOpt old) ≠ [] := by
    rw [hdec]
    simp
  rcases linesOfOpt_render (buildLines pattern e (linesOfOpt old)) hL2ne hL2nn
    with hcase | ⟨hcase, hren⟩
  · rw [hcase]
    have hstep : buildLines pattern e (buildLines pattern e (linesOfOpt old))
        = buildLines pattern e (linesOfOpt old) := by
      rw [hdec]
      simp [buildLines, replaceFirst_found pattern e pre e post hpre hme]
    rw [hstep]
  · rw [hcase]
    have hstep : buildLines pattern e (buildLines pattern e (linesOfOpt old) ++ [""])
        = buildLines pattern e (linesOfOpt old) ++ [""] := by
      rw [hdec]
      rw [show (pre ++ e :: post) ++ [""] = pre ++ e :: (post ++ [""]) from by simp]
      simp [buildLines, replaceFirst_found pattern e pre e (post ++ [""]) hpre hme]
    rw [hstep, hren]

lemma isRepoChar_ne (c : Char) (h : isRepoChar c = true) : c ≠ '#' ∧ c ≠ '\n' := by
  constructor <;> (rintro rfl; revert h; decide)

lemma pattern_shape (w : Writer) (repoName : String) (h : repoNameMatches repoName = true) :
    ∃ b : List Char, (∀ c ∈ b, isRepoChar c = true)
      ∧ ("/repos/" ++ w.getFilename repoName).data
        = '/' :: 'r' :: 'e' :: 'p' :: 'o' :: 's' :: '/' :: (b ++ ['.', 'y', 'a', 'm', 'l']) := by
  unfold repoNameMatches at h
  split at h
  · rename_i a b heq
    simp only [Bool.and_eq_true] at h
    refine ⟨b, fun c hc => List.all_eq_true.mp h.2 c hc, ?_⟩
    simp only [Writer.getFilename]
    rw [heq]
    rw [String.data_append, String.data_append,
      show ("/repos/").data = ['/', 'r', 'e', 'p', 'o', 's', '/'] from rfl,
      show (".yaml").data = ['.', 'y', 'a', 'm', 'l'] from rfl,
      show ([a, b].getD 1 []) = b from rfl,
      show (String.mk b).data = b from rfl]
    simp
  · simp at h

lemma pattern_chars (w : Writer) (repoName : String) (b : List Char)
    (hb : ∀ c ∈ b, isRepoChar c = true)
    (hshape : ("/repos/" ++ w.getFilename repoName).data
      = '/' :: 'r' :: 'e' :: 'p' :: 'o' :: 's' :: '/' :: (b ++ ['.', 'y', 'a', 'm', 'l'])) :
    ∀ c ∈ ("/repos/" ++ w.getFilename repoName).data, c ≠ '#' ∧ c ≠ '\n' := by
  rw [hshape]
  intro c hc
  simp only [List.mem_cons, List.mem_append, List.mem_singleton] at hc
  rcases hc with rfl | rfl | rfl | rfl | rfl | rfl | rfl | hc2
  · exact ⟨by decide, by decide⟩
  · exact ⟨by decide, by decide⟩
  · exact ⟨by decide, by decide⟩
  · exact ⟨by decide, by decide⟩
  · exact ⟨by decide, by decide⟩
  · exact ⟨by decide, by decide⟩
  · exact ⟨by decide, by decide⟩
  · rcases hc2 with hcb | hcy
    · exact isRepoChar_ne c (hb c hcb)
    · rcases hcy with rfl | rfl | rfl | rfl | rfl | h0
      · exact ⟨by decide, by decide⟩
      · exact ⟨by decide, by decide⟩
      · exact ⟨by decide, by decide⟩
      · exact ⟨by decide, by decide⟩
      · exact ⟨by decide, by decide⟩
      · simp at h0

lemma updateCodeowners_err (w : Writer) (filename : String) (owners : List String) (fs : FS)
    (h : owners.length = 0 ∨ normalizeOwners owners = []) :
    ∃ e, w.updateCodeowners filename owners fs = (fs, some e) := by
  rcases h with h | h
  · exact ⟨"no owners specified for " ++ filename, by simp [Writer.updateCodeowners, h]⟩
  · by_cases hlen : owners.length = 0
    · exact ⟨"no owners specified for " ++ filename, by simp [Writer.updateCodeowners, hlen]⟩
    · exact ⟨"all owners for " ++ filename ++ " were invalid after normalization",
        by simp [Writer.updateCodeowners, hlen, h]⟩

lemma updateCodeowners_ok (w : Writer) (filename : String) (owners : List String) (fs : FS)
    (hlen : ¬ owners.length = 0) (n : String) (ns : List String)
    (hno : normalizeOwners owners = n :: ns) :
    w.updateCodeowners filename owners fs
      = (fs.write w.codeownersFile
          (renderLines (buildLines ("/repos/" ++ filename)
            ("/repos/" ++ filename ++ " " ++ joinSpace (n :: ns))
            (linesOfOpt (fs w.codeownersFile)))), none) := by
  simp [Writer.updateCodeowners, hlen, hno]

/-- C10 (amended): with dryRun set to false and no owner handle
containing an embedded newline, Write is idempotent on the CODEOWNERS
file: writing the same configuration twice leaves CODEOWNERS content
identical to writing it once, because the existing `/repos/<filename>`
line is replaced in place with the normalized owner entry rather than
duplicated. -/
theorem write_idempotent_on_codeowners (w : Writer) (cfg : RepositoryConfig) (fs : FS)
    (hnl : ∀ o ∈ cfg.Owners, '\n' ∉ o.data) :
    ((w.Write cfg false ((w.Write cfg false fs).1)).1) w.codeownersFile
      = ((w.Write cfg false fs).1) w.codeownersFile := by
  by_cases h1 : goTrimSpace cfg.Name = ""
  · simp [Writer.Write, h1]
  · by_cases h2 : repoNameMatches cfg.Name = false
    · simp [Writer.Write, h1, h2]
    · have h2t : repoNameMatches cfg.Name = true := by
        cases hB : repoNameMatches cfg.Name
        · exact absurd hB h2
        · rfl
      by_cases herr : cfg.Owners.length = 0 ∨ normalizeOwners cfg.Owners = []
      · obtain ⟨e1, he1⟩ := updateCodeowners_err w (w.getFilename cfg.Name) cfg.Owners
          (fs.write (filepathJoin w.reposDir (w.getFilename cfg.Name)) (yamlMarshal cfg)) herr
        have hw1 : (w.Write cfg false fs).1 = (fs.write (filepathJoin w.reposDir (w.getFilename cfg.Name)) (yamlMarshal cfg)) := by
          simp [Writer.Write, h1, h2, he1]
        rw [hw1]
        obtain ⟨e2, he2⟩ := updateCodeowners_err w (w.getFilename cfg.Name) cfg.Owners
          ((fs.write (filepathJoin w.reposDir (w.getFilename cfg.Name)) (yamlMarshal cfg)).write (filepathJoin w.reposDir (w.getFilename cfg.Name)) (yamlMarshal cfg)) herr
        have hw2 : (w.Write cfg false (fs.write (filepathJoin w.reposDir (w.getFilename cfg.Name)) (yamlMarshal cfg))).1
            = (fs.write (filepathJoin w.reposDir (w.getFilename cfg.Name)) (yamlMarshal cfg)).write (filepathJoin w.reposDir (w.getFilename cfg.Name)) (yamlMarshal cfg) := by
          simp [Writer.Write, h1, h2, he2]
        rw [hw2]
        by_cases hct : w.codeownersFile = filepathJoin w.reposDir (w.getFilename cfg.Name)
        · simp [FS.write, hct]
        · simp [FS.write, hct]
      · push_neg at herr
        obtain ⟨hlen, hnne⟩ := herr
        cases hno : normalizeOwners cfg.Owners with
        | nil => exact absurd hno hnne
        | cons n ns =>
        obtain ⟨b, hb, hshape⟩ := pattern_shape w cfg.Name h2t
        have hchars := pattern_chars w cfg.Name b hb hshape
        have hpdne : ("/repos/" ++ w.getFilename cfg.Name).data ≠ [] := by
          rw [hshape]
          simp
        have hempty : matchesPattern "" ("/repos/" ++ w.getFilename cfg.Name) = false :=
          matchesPattern_empty _ hpdne
        have hhash : '#' ∉ ("/repos/" ++ w.getFilename cfg.Name).data :=
          fun hm => (hchars '#' hm).1 rfl
        have hpnl : '\n' ∉ ("/repos/" ++ w.getFilename cfg.Name).data :=
          fun hm => (hchars '\n' hm).2 rfl
        have hhead : ∃ c rest, ("/repos/" ++ w.getFilename cfg.Name).data = c :: rest
            ∧ isSpaceChar c = false := ⟨'/', _, hshape, by decide⟩
        have hlast : ∃ c pre2, ("/repos/" ++ w.getFilename cfg.Name).data = pre2 ++ [c]
            ∧ isSpaceChar c = false := by
          refine ⟨'l', '/' :: 'r' :: 'e' :: 'p' :: 'o' :: 's' :: '/' :: (b ++ ['.', 'y', 'a', 'm']),
            ?_, by decide⟩
          rw [hshape]
          simp
        have hedata : ("/repos/" ++ w.getFilename cfg.Name ++ " " ++ joinSpace (n :: ns)).data
            = ("/repos/" ++ w.getFilename cfg.Name).data ++ ' ' :: (joinSpace (n :: ns)).data := by
          rw [String.data_append, String.data_append,
            show (" ").data = [' '] from rfl]
          simp
        have hme : matchesPattern ("/repos/" ++ w.getFilename cfg.Name ++ " " ++ joinSpace (n :: ns))
            ("/repos/" ++ w.getFilename cfg.Name) = true := by
          have hent := matchesPattern_entry ("/repos/" ++ w.getFilename cfg.Name)
            ((joinSpace (n :: ns)).data) hhead hlast hhash
          rwa [show String.mk (("/repos/" ++ w.getFilename cfg.Name).data
              ++ ' ' :: (joinSpace (n :: ns)).data)
            = "/repos/" ++ w.getFilename cfg.Name ++ " " ++ joinSpace (n :: ns) from by
              rw [← hedata, mk_data]] at hent
        have hnnE : '\n' ∉ ("/repos/" ++ w.getFilename cfg.Name ++ " "
            ++ joinSpace (n :: ns)).data := by
          rw [hedata]
          intro hm
          rcases List.mem_append.mp hm with hA | hA
          · exact hpnl hA
          · rcases List.mem_cons.mp hA with hB | hB
            · exact absurd hB (by decide)
            · exact joinSpace_no_newline (n :: ns)
                (fun x hx => normalizeOwners_no_newline cfg.Owners hnl x (hno ▸ hx)) hB
        have hu1 := updateCodeowners_ok w (w.getFilename cfg.Name) cfg.Owners
          (fs.write (filepathJoin w.reposDir (w.getFilename cfg.Name)) (yamlMarshal cfg)) hlen n ns hno
        have hw1 : (w.Write cfg false fs).1
            = ((fs.write (filepathJoin w.reposDir (w.getFilename cfg.Name)) (yamlMarshal cfg)).write w.codeownersFile
            (renderLines (buildLines ("/repos/" ++ w.getFilename cfg.Name)
              ("/repos/" ++ w.getFilename cfg.Name ++ " " ++ joinSpace (n :: ns))
              (linesOfOpt ((fs.write (filepathJoin w.reposDir (w.getFilename cfg.Name)) (yamlMarshal cfg)) w.codeownersFile))))) := by
          simp [Writer.Write, h1, h2, hu1]
        rw [hw1]
        have hu2 := updateCodeowners_ok w (w.getFilename cfg.Name) cfg.Owners
          (((fs.write (filepathJoin w.reposDir (w.getFilename cfg.Name)) (yamlMarshal cfg)).write w.codeownersFile
            (renderLines (buildLines ("/repos/" ++ w.getFilename cfg.Name)
              ("/repos/" ++ w.getFilename cfg.Name ++ " " ++ joinSpace (n :: ns))
              (linesOfOpt ((fs.write (filepathJoin w.reposDir (w.getFilename cfg.Name)) (yamlMarshal cfg)) w.codeownersFile))))).write (filepathJoin w.reposDir (w.getFilename cfg.Name)) (yamlMarshal cfg)) hlen n ns hno
        have hw2 : (w.Write cfg false
            ((fs.write (filepathJoin w.reposDir (w.getFilename cfg.Name)) (yamlMarshal cfg)).write w.codeownersFile
            (renderLines (buildLines ("/repos/" ++ w.getFilename cfg.Name)
              ("/repos/" ++ w.getFilename cfg.Name ++ " " ++ joinSpace (n :: ns))
              (linesOfOpt ((fs.write (filepathJoin w.reposDir (w.getFilename cfg.Name)) (yamlMarshal cfg)) w.codeownersFile)))))).1
            = (((fs.write (filepathJoin w.reposDir (w.getFilename cfg.Name)) (yamlMarshal cfg)).write w.codeownersFile
            (renderLines (buildLines ("/repos/" ++ w.getFilename cfg.Name)
              ("/repos/" ++ w.getFilename cfg.Name ++ " " ++ joinSpace (n :: ns))
              (linesOfOpt ((fs.write (filepathJoin w.reposDir (w.getFilename cfg.Name)) (yamlMarshal cfg)) w.codeownersFile))))).write (filepathJoin w.reposDir (w.getFilename cfg.Name)) (yamlMarshal cfg)).write w.codeownersFile
              (renderLines (buildLines ("/repos/" ++ w.getFilename cfg.Name)
              ("/repos/" ++ w.getFilename cfg.Name ++ " " ++ joinSpace (n :: ns))
              (linesOfOpt ((((fs.write (filepathJoin w.reposDir (w.getFilename cfg.Name)) (yamlMarshal cfg)).write w.codeownersFile
            (renderLines (buildLines ("/repos/" ++ w.getFilename cfg.Name)
              ("/repos/" ++ w.getFilename cfg.Name ++ " " ++ joinSpace (n :: ns))
              (linesOfOpt ((fs.write (filepathJoin w.reposDir (w.getFilename cfg.Name)) (yamlMarshal cfg)) w.codeownersFile))))).write (filepathJoin w.reposDir (w.getFilename cfg.Name)) (yamlMarshal cfg)) w.codeownersFile)))) := by
          simp [Writer.Write, h1, h2, hu2]
        rw [hw2]
        have lhs : ((((fs.write (filepathJoin w.reposDir (w.getFilename cfg.Name)) (yamlMarshal cfg)).write w.codeownersFile
            (renderLines (buildLines ("/repos/" ++ w.getFilename cfg.Name)
              ("/repos/" ++ w.getFilename cfg.Name ++ " " ++ joinSpace (n :: ns))
              (linesOfOpt ((fs.write (filepathJoin w.reposDir (w.getFilename cfg.Name)) (yamlMarshal cfg)) w.codeownersFile))))).write (filepathJoin w.reposDir (w.getFilename cfg.Name)) (yamlMarshal cfg)).write w.codeownersFile
              (renderLines (buildLines ("/repos/" ++ w.getFilename cfg.Name)
              ("/repos/" ++ w.getFilename cfg.Name ++ " " ++ joinSpace (n :: ns))
              (linesOfOpt ((((fs.write (filepathJoin w.reposDir (w.getFilename cfg.Name)) (yamlMarshal cfg)).write w.codeownersFile
            (renderLines (buildLines ("/repos/" ++ w.getFilename cfg.Name)
              ("/repos/" ++ w.getFilename cfg.Name ++ " " ++ joinSpace (n :: ns))
              (linesOfOpt ((fs.write (filepathJoin w.reposDir (w.getFilename cfg.Name)) (yamlMarshal cfg)) w.codeownersFile))))).write (filepathJoin w.reposDir (w.getFilename cfg.Name)) (yamlMarshal cfg)) w.codeownersFile))))) w.codeownersFile
            = some (renderLines (buildLines ("/repos/" ++ w.getFilename cfg.Name)
              ("/repos/" ++ w.getFilename cfg.Name ++ " " ++ joinSpace (n :: ns))
              (linesOfOpt ((((fs.write (filepathJoin w.reposDir (w.getFilename cfg.Name)) (yamlMarshal cfg)).write w.codeownersFile
            (renderLines (buildLines ("/repos/" ++ w.getFilename cfg.Name)
              ("/repos/" ++ w.getFilename cfg.Name ++ " " ++ joinSpace (n :: ns))
              (linesOfOpt ((fs.write (filepathJoin w.reposDir (w.getFilename cfg.Name)) (yamlMarshal cfg)) w.codeownersFile))))).write (filepathJoin w.reposDir (w.getFilename cfg.Name)) (yamlMarshal cfg)) w.codeownersFile)))) := by
          simp [FS.write]
        have rhs : ((fs.write (filepathJoin w.reposDir (w.getFilename cfg.Name)) (yamlMarshal cfg)).write w.codeownersFile
            (renderLines (buildLines ("/repos/" ++ w.getFilename cfg.Name)
              ("/repos/" ++ w.getFilename cfg.Name ++ " " ++ joinSpace (n :: ns))
              (linesOfOpt ((fs.write (filepathJoin w.reposDir (w.getFilename cfg.Name)) (yamlMarshal cfg)) w.codeownersFile))))) w.codeownersFile
            = some (renderLines (buildLines ("/repos/" ++ w.getFilename cfg.Name)
              ("/repos/" ++ w.getFilename cfg.Name ++ " " ++ joinSpace (n :: ns))
              (linesOfOpt ((fs.write (filepathJoin w.reposDir (w.getFilename cfg.Name)) (yamlMarshal cfg)) w.codeownersFile)))) := by
          simp [FS.write]
        rw [lhs, rhs]
        by_cases hct : w.codeownersFile = filepathJoin w.reposDir (w.getFilename cfg.Name)
        · have g1 : (((fs.write (filepathJoin w.reposDir (w.getFilename cfg.Name)) (yamlMarshal cfg)).write w.codeownersFile
            (renderLines (buildLines ("/repos/" ++ w.getFilename cfg.Name)
              ("/repos/" ++ w.getFilename cfg.Name ++ " " ++ joinSpace (n :: ns))
              (linesOfOpt ((fs.write (filepathJoin w.reposDir (w.getFilename cfg.Name)) (yamlMarshal cfg)) w.codeownersFile))))).write (filepathJoin w.reposDir (w.getFilename cfg.Name)) (yamlMarshal cfg)) w.codeownersFile = some (yamlMarshal cfg) := by
            simp [FS.write, hct]
          have g2 : (fs.write (filepathJoin w.reposDir (w.getFilename cfg.Name)) (yamlMarshal cfg)) w.codeownersFile = some (yamlMarshal cfg) := by
            simp [FS.write, hct]
          rw [g1, g2]
        · have g1 : (((fs.write (filepathJoin w.reposDir (w.getFilename cfg.Name)) (yamlMarshal cfg)).write w.codeownersFile
            (renderLines (buildLines ("/repos/" ++ w.getFilename cfg.Name)
              ("/repos/" ++ w.getFilename cfg.Name ++ " " ++ joinSpace (n :: ns))
              (linesOfOpt ((fs.write (filepathJoin w.reposDir (w.getFilename cfg.Name)) (yamlMarshal cfg)) w.codeownersFile))))).write (filepathJoin w.reposDir (w.getFilename cfg.Name)) (yamlMarshal cfg)) w.codeownersFile
              = ((fs.write (filepathJoin w.reposDir (w.getFilename cfg.Name)) (yamlMarshal cfg)).write w.codeownersFile
            (renderLines (buildLines ("/repos/" ++ w.getFilename cfg.Name)
              ("/repos/" ++ w.getFilename cfg.Name ++ " " ++ joinSpace (n :: ns))
              (linesOfOpt ((fs.write (filepathJoin w.reposDir (w.getFilename cfg.Name)) (yamlMarshal cfg)) w.codeownersFile))))) w.codeownersFile := by
            simp [FS.write, hct]
          rw [g1, rhs]
          rw [buildRender_idem ("/repos/" ++ w.getFilename cfg.Name)
            ("/repos/" ++ w.getFilename cfg.Name ++ " " ++ joinSpace (n :: ns))
            hme hempty hnnE
            ((fs.write (filepathJoin w.reposDir (w.getFilename cfg.Name)) (yamlMarshal cfg)) w.codeownersFile)]

/-- C10 witness: writing a valid configuration with normalizable owners
twice leaves the CODEOWNERS file unchanged. -/
theorem write_idempotent_on_codeowners_witness :
    (((NewWriter "repos" "CO").Write ⟨"org/x", [], [], ["team1", "@team2", "  team1  "]⟩ false
        (((NewWriter "repos" "CO").Write ⟨"org/x", [], [], ["team1", "@team2", "  team1  "]⟩ false
          (fun _ => none)).1)).1) (NewWriter "repos" "CO").codeownersFile
      = ((((NewWriter "repos" "CO").Write ⟨"org/x", [], [], ["team1", "@team2", "  team1  "]⟩ false
          (fun _ => none)).1)) (NewWriter "repos" "CO").codeownersFile :=
  write_idempotent_on_codeowners _ _ _ (by decide)

end CoverageDashboard
